import Mathlib

/-!
# Verification of the voice-echo media pipeline

Shallow embedding of the voice-echo repository (Rust) in Lean 4, together
with proofs and refutations of the specification claims about it.

Conventions used throughout this development:

* Rust `i16` values are modelled as `Int` with explicit wrapping where the
  source can overflow (release-mode two's-complement semantics); `u8` values
  are modelled as `Nat` below 256.
* `f64` quantities that only flow through comparisons, `max`, and linear
  combinations (VAD energies and thresholds) are modelled as exact rationals;
  floating-point rounding is not modelled.
* Monotonic clocks (`Instant` / `Duration`) are modelled as rationals passed
  explicitly to each step.
* Fallible operations return `Option` / an explicit result type; a Rust panic
  is an explicit `panicked` result.
-/

/-! ## Codec layer: `src/pipeline/audio.rs` -/

/-- Two's-complement wrap of an integer into the `i16` range.  Release-mode
Rust wraps on overflow; the only overflowing operation in the codec is the
negation `-sample` at `i16::MIN`. -/
def wrap16 (x : Int) : Int := (x + 32768) % 65536 - 32768

/-- Arithmetic shift right on `i16`/`i32` values: floor division by `2 ^ n`
(Rust `>>` on signed integers). -/
def asr (x : Int) (n : Nat) : Int := Int.fdiv x (2 ^ n)

/-- `compress_table` from `audio.rs`: the 7-step piecewise exponent table
over the top byte of the biased magnitude. -/
def compress_table (v : Nat) : Nat :=
  if v ≤ 1 then 0
  else if v ≤ 3 then 1
  else if v ≤ 7 then 2
  else if v ≤ 15 then 3
  else if v ≤ 31 then 4
  else if v ≤ 63 then 5
  else if v ≤ 127 then 6
  else 7

/-- `pcm_to_mulaw` from `audio.rs`: encode a 16-bit PCM sample to a mu-law
byte.  The negation of negative samples is `i16` negation, which wraps at
`i16::MIN`; clipping at 32635 and the bias of 0x84 = 132 follow.  The final
`!(sign | (exponent << 4) | mantissa)` is `255 - (sign + 16*e + m)` since the
three bit fields are disjoint. -/
def pcm_to_mulaw (sample : Int) : Nat :=
  let sign : Nat := if sample < 0 then 128 else 0
  let s1 : Int := if sample < 0 then wrap16 (-sample) else sample
  let s2 : Int := if s1 > 32635 then 32635 else s1
  let s3 : Int := s2 + 132
  let exponent : Nat := compress_table ((asr s3 7 % 256)).toNat
  let mantissa : Nat := ((asr s3 (exponent + 3) % 16)).toNat
  255 - (sign + 16 * exponent + mantissa)

/-- `mulaw_to_pcm` from `audio.rs`: ITU-T G.711 mu-law expansion of one byte.
`m` is the bit-complement of the input byte; sign from bit 7, exponent from
bits 4-6, mantissa from bits 0-3; the arithmetic never overflows `i16`. -/
def mulaw_to_pcm (mulaw : Nat) : Int :=
  let m : Nat := 255 - mulaw % 256
  let sign : Nat := m / 128
  let exponent : Nat := (m / 16) % 8
  let mantissa : Nat := m % 16
  let sample : Int := ((mantissa * 8 + 132) * 2 ^ exponent : Nat) - 132
  if sign = 1 then -sample else sample

/-- `decode_mulaw` from `audio.rs`: decode a buffer of mu-law bytes. -/
def decode_mulaw (mulaw_data : List Nat) : List Int :=
  mulaw_data.map mulaw_to_pcm

/-- `encode_mulaw` from `audio.rs`: encode a buffer of PCM samples. -/
def encode_mulaw (pcm_data : List Int) : List Nat :=
  pcm_data.map pcm_to_mulaw

/-! ### The mu-law round-trip bound (claim C1)

The bound `|round_trip s - s| <= 0.05 * |s| + 100`, with denominators cleared
(multiplied through by 20), as a boolean point check, proved for every sample
except `i16::MIN` by analysing the eight exponent segments of the encoder.
At `i16::MIN` the `i16` negation in `pcm_to_mulaw` wraps to `i16::MIN`
itself, the byte comes out as `0x7F`, and the decoder returns `0` - an
absolute error of 32768, far beyond the claimed bound. -/

/-- Boolean point check of the round-trip bound at sample `s`, with the
rational bound `0.05 * |s| + 100` multiplied through by 20. -/
def roundTripOk (s : Int) : Bool :=
  20 * (mulaw_to_pcm (pcm_to_mulaw s) - s).natAbs ≤ s.natAbs + 2000

theorem asr_natCast (a n : Nat) : asr (a : Int) n = ((a / 2 ^ n : Nat) : Int) := by
  rw [asr, Int.fdiv_eq_ediv _ (by positivity)]
  push_cast
  rfl

theorem emod256_toNat (a : Nat) : ((a : Int) % 256).toNat = a % 256 := by omega

theorem emod16_toNat (a : Nat) : ((a : Int) % 16).toNat = a % 16 := by omega

theorem compress_table_le (v : Nat) : compress_table v ≤ 7 := by
  unfold compress_table
  split_ifs <;> omega

/-- On a non-negative sample, `pcm_to_mulaw` clips at 32635, biases by 132
and emits the byte `255 - (16 e + mantissa)` built from the compression
table. -/
theorem encode_nonneg (s : Nat) (hs : s ≤ 32767) :
    pcm_to_mulaw (s : Int) =
      255 - (16 * compress_table ((min s 32635 + 132) / 128)
        + (min s 32635 + 132) / 2 ^ (compress_table ((min s 32635 + 132) / 128) + 3) % 16) := by
  have h0 : ¬ ((s : Int) < 0) := not_lt.2 (Int.natCast_nonneg s)
  have hm : (if (s : Int) > 32635 then (32635 : Int) else (s : Int)) + 132
      = ((min s 32635 + 132 : Nat) : Int) := by
    split_ifs with h
    · have : ¬ (s ≤ 32635) := by exact_mod_cast not_le.2 h
      push_cast
      omega
    · have : s ≤ 32635 := by exact_mod_cast not_lt.1 h
      push_cast
      omega
  simp only [pcm_to_mulaw, h0, if_false, hm, asr_natCast, emod256_toNat, emod16_toNat]
  have h78 : (min s 32635 + 132) / 2 ^ 7 % 256 = (min s 32635 + 132) / 128 := by omega
  rw [h78]
  omega

/-- `mulaw_to_pcm` on a positive-sign byte `255 - (16 e + mantissa)`. -/
theorem decode_byte (e mant : Nat) (he : e ≤ 7) (hm : mant ≤ 15) :
    mulaw_to_pcm (255 - (16 * e + mant)) = (((mant * 8 + 132) * 2 ^ e : Nat) : Int) - 132 := by
  have hb : 16 * e + mant ≤ 127 := by omega
  have h1 : (255 - (16 * e + mant)) % 256 = 255 - (16 * e + mant) := by omega
  have h2 : 255 - (255 - (16 * e + mant)) = 16 * e + mant := by omega
  have hsign : (16 * e + mant) / 128 = 0 := by omega
  have hexp : (16 * e + mant) / 16 % 8 = e := by omega
  have hmant : (16 * e + mant) % 16 = mant := by omega
  simp only [mulaw_to_pcm, h1, h2, hsign, hexp, hmant]
  norm_num

theorem roundTripOk_nonneg (s : Nat) (hs : s ≤ 32767) : roundTripOk (s : Int) = true := by
  rw [roundTripOk, encode_nonneg s hs]
  set m : Nat := min s 32635 + 132 with hmdef
  set e : Nat := compress_table (m / 128) with hedef
  set mant : Nat := m / 2 ^ (e + 3) % 16 with hmantdef
  rw [decode_byte e mant (compress_table_le _) (by omega)]
  simp only [decide_eq_true_eq]
  rw [hedef, compress_table] at *
  split_ifs at * <;>
    simp only [hmantdef] at * <;>
    omega

theorem wrap16_id (x : Int) (h1 : -32768 ≤ x) (h2 : x ≤ 32767) : wrap16 x = x := by
  unfold wrap16
  omega

/-- On a strictly negative sample above `i16::MIN`, the encoder emits the
same byte as on its absolute value with the sign bit cleared from the
complement (so 128 less before complementing). -/
theorem encode_neg (s : Nat) (h1 : 1 ≤ s) (hs : s ≤ 32767) :
    pcm_to_mulaw (-(s : Int)) =
      255 - (128 + 16 * compress_table ((min s 32635 + 132) / 128)
        + (min s 32635 + 132) / 2 ^ (compress_table ((min s 32635 + 132) / 128) + 3) % 16) := by
  have h0 : (-(s : Int)) < 0 := by
    have : (1 : Int) ≤ (s : Int) := by exact_mod_cast h1
    omega
  have hw : wrap16 (-(-(s : Int))) = (s : Int) := by
    rw [neg_neg]
    exact wrap16_id _ (by omega) (by exact_mod_cast hs)
  have hm : (if (s : Int) > 32635 then (32635 : Int) else (s : Int)) + 132
      = ((min s 32635 + 132 : Nat) : Int) := by
    split_ifs with h
    · have : ¬ (s ≤ 32635) := by exact_mod_cast not_le.2 h
      push_cast
      omega
    · have : s ≤ 32635 := by exact_mod_cast not_lt.1 h
      push_cast
      omega
  simp only [pcm_to_mulaw, h0, if_true, if_pos h0, hw, hm, asr_natCast, emod256_toNat,
    emod16_toNat]
  have h78 : (min s 32635 + 132) / 2 ^ 7 % 256 = (min s 32635 + 132) / 128 := by omega
  rw [h78]

/-- `mulaw_to_pcm` on a negative-sign byte. -/
theorem decode_byte_neg (e mant : Nat) (he : e ≤ 7) (hm : mant ≤ 15) :
    mulaw_to_pcm (255 - (128 + 16 * e + mant))
      = -((((mant * 8 + 132) * 2 ^ e : Nat) : Int) - 132) := by
  have hb : 128 + 16 * e + mant ≤ 255 := by omega
  have h1 : (255 - (128 + 16 * e + mant)) % 256 = 255 - (128 + 16 * e + mant) := by omega
  have h2 : 255 - (255 - (128 + 16 * e + mant)) = 128 + 16 * e + mant := by omega
  have hsign : (128 + 16 * e + mant) / 128 = 1 := by omega
  have hexp : (128 + 16 * e + mant) / 16 % 8 = e := by omega
  have hmant : (128 + 16 * e + mant) % 16 = mant := by omega
  simp only [mulaw_to_pcm, h1, h2, hsign, hexp, hmant]
  norm_num

theorem roundTripOk_neg (s : Nat) (h1 : 1 ≤ s) (hs : s ≤ 32767) :
    roundTripOk (-(s : Int)) = true := by
  have hpos := roundTripOk_nonneg s hs
  rw [roundTripOk, encode_nonneg s hs] at hpos
  rw [roundTripOk, encode_neg s h1 hs]
  set m : Nat := min s 32635 + 132 with hmdef
  set e : Nat := compress_table (m / 128) with hedef
  set mant : Nat := m / 2 ^ (e + 3) % 16 with hmantdef
  rw [decode_byte e mant (compress_table_le _) (by omega)] at hpos
  rw [decode_byte_neg e mant (compress_table_le _) (by omega)]
  simp only [decide_eq_true_eq] at *
  omega

theorem roundTripOk_all (s : Int) (h1 : -32767 ≤ s) (h2 : s ≤ 32767) :
    roundTripOk s = true := by
  rcases le_or_lt 0 s with hpos | hneg
  · have := roundTripOk_nonneg s.toNat (by omega)
    rwa [Int.toNat_of_nonneg hpos] at this
  · have := roundTripOk_neg (-s).toNat (by omega) (by omega)
    rwa [Int.toNat_of_nonneg (by omega), neg_neg] at this

/-- C1 (counterexample): at `s = i16::MIN = -32768` the claimed bound
`|mulaw_to_pcm (pcm_to_mulaw s) - s| ≤ 0.05 * |s| + 100` fails on the code:
the `i16` negation wraps, the sample encodes to byte `0x7F`, and the decoder
returns `0`, so the round-trip error is 32768 while the bound allows only
1738.4. -/
theorem C1_claimed_bound_fails_at_min :
    ¬ (|((mulaw_to_pcm (pcm_to_mulaw (-32768)) : ℚ)) - ((-32768 : Int) : ℚ)|
        ≤ 5 / 100 * |((-32768 : Int) : ℚ)| + 100) := by
  have hv : mulaw_to_pcm (pcm_to_mulaw (-32768)) = 0 := by decide
  rw [hv]
  push_cast
  rw [abs_of_nonneg (by norm_num), abs_of_nonpos (by norm_num)]
  norm_num

/-- C1 (amended): for every 16-bit signed sample except `i16::MIN`, that is
for `-32767 ≤ s ≤ 32767`, encoding with `pcm_to_mulaw` and decoding with
`mulaw_to_pcm` yields a value within 5 percent of `|s|` plus 100 units:
`|mulaw_to_pcm (pcm_to_mulaw s) - s| ≤ 0.05 * |s| + 100`. -/
theorem C1_mulaw_round_trip (s : Int) (h1 : -32767 ≤ s) (h2 : s ≤ 32767) :
    |((mulaw_to_pcm (pcm_to_mulaw s) : ℚ)) - (s : ℚ)| ≤ 5 / 100 * |(s : ℚ)| + 100 := by
  have h := roundTripOk_all s h1 h2
  rw [roundTripOk, decide_eq_true_eq] at h
  have hq : (20 : ℚ) * ((mulaw_to_pcm (pcm_to_mulaw s) - s).natAbs : ℚ)
      ≤ (s.natAbs : ℚ) + 2000 := by exact_mod_cast h
  rw [Int.cast_natAbs, Int.cast_natAbs] at hq
  push_cast at hq ⊢
  linarith [hq]

/-- C1 (witness): the amended round-trip bound, instantiated at `s = 12345`. -/
theorem C1_mulaw_round_trip_witness :
    |((mulaw_to_pcm (pcm_to_mulaw 12345) : ℚ)) - ((12345 : Int) : ℚ)|
      ≤ 5 / 100 * |((12345 : Int) : ℚ)| + 100 :=
  C1_mulaw_round_trip 12345 (by norm_num) (by norm_num)


/-! ## WAV framing: `pcm_to_wav` / `wav_to_pcm` from `audio.rs` (claim C6)

The repository functions delegate the byte format to the `hound` crate, which
is not part of this repository.  Modelled from the spec: `pcm_to_wav` emits a
canonical RIFF/WAVE file - 1 channel, 8000 Hz, 16-bit signed little-endian
PCM with a 16-byte `fmt ` chunk - and `wav_to_pcm` parses RIFF/WAVE,
accepting 16-bit mono PCM and failing on any other format.  RIFF length
fields are 32-bit little-endian, so byte counts are serialised modulo
`2 ^ 32`. -/

/-- Serialise a 16-bit value little-endian. -/
def u16le (x : Nat) : List Nat := [x % 256, x / 256 % 256]

/-- Serialise a 32-bit value little-endian. -/
def u32le (x : Nat) : List Nat :=
  [x % 256, x / 256 % 256, x / 65536 % 256, x / 16777216 % 256]

/-- Serialise an `i16` sample little-endian (two's complement). -/
def i16le (s : Int) : List Nat :=
  [(s % 65536).toNat % 256, (s % 65536).toNat / 256]

/-- `pcm_to_wav` from `audio.rs`: RIFF header, `fmt ` chunk for 16-bit mono
PCM at 8000 Hz, then the `data` chunk holding the samples. -/
def pcm_to_wav (v : List Int) : List Nat :=
  [82, 73, 70, 70] ++ u32le (36 + 2 * v.length) ++ [87, 65, 86, 69]
    ++ [102, 109, 116, 32] ++ u32le 16
    ++ u16le 1 ++ u16le 1 ++ u32le 8000 ++ u32le 16000 ++ u16le 2 ++ u16le 16
    ++ [100, 97, 116, 97] ++ u32le (2 * v.length) ++ (v.map i16le).flatten

/-- Read a 32-bit little-endian value. -/
def readU32 : List Nat → Option (Nat × List Nat)
  | a :: b :: c :: d :: rest => some (a + 256 * b + 65536 * c + 16777216 * d, rest)
  | _ => none

/-- Read exactly `n` bytes. -/
def readBytes (n : Nat) (bs : List Nat) : Option (List Nat × List Nat) :=
  if n ≤ bs.length then some (bs.take n, bs.drop n) else none

/-- Decode a little-endian byte pair as an `i16`. -/
def decodeI16 (lo hi : Nat) : Int :=
  if lo + 256 * hi < 32768 then ((lo + 256 * hi : Nat) : Int)
  else ((lo + 256 * hi : Nat) : Int) - 65536

/-- Decode the `data` chunk as `i16` samples; fails on an odd byte count. -/
def parseSamples : List Nat → Option (List Int)
  | [] => some []
  | lo :: hi :: rest =>
    match parseSamples rest with
    | some v => some (decodeI16 lo hi :: v)
    | none => none
  | _ => none

/-- Validate a `fmt ` chunk: PCM format tag 1, mono, 16 bits per sample. -/
def parseFmt (chunk : List Nat) : Bool :=
  match chunk with
  | t1 :: t2 :: c1 :: c2 :: _ :: _ :: _ :: _ :: _ :: _ :: _ :: _ :: _ :: _ :: b1 :: b2 :: _ =>
      t1 + 256 * t2 = 1 && c1 + 256 * c2 = 1 && b1 + 256 * b2 = 16
  | _ => false

/-- Walk the RIFF chunk list (fuelled): validate `fmt `, decode `data`,
skip anything else. -/
def findChunks : Nat → Bool → List Nat → Option (List Int)
  | 0, _, _ => none
  | fuel + 1, sawFmt, id1 :: id2 :: id3 :: id4 :: rest =>
    match readU32 rest with
    | none => none
    | some (size, rest2) =>
      if id1 = 102 ∧ id2 = 109 ∧ id3 = 116 ∧ id4 = 32 then
        match readBytes size rest2 with
        | none => none
        | some (chunk, rest3) =>
          bif parseFmt chunk then findChunks fuel true rest3 else none
      else if id1 = 100 ∧ id2 = 97 ∧ id3 = 116 ∧ id4 = 97 then
        bif sawFmt then
          match readBytes size rest2 with
          | none => none
          | some (chunk, _) => parseSamples chunk
        else none
      else
        match readBytes size rest2 with
        | none => none
        | some (_, rest3) => findChunks fuel sawFmt rest3
  | _ + 1, _, _ => none

/-- `wav_to_pcm` from `audio.rs`: check the RIFF/WAVE header, then scan the
chunks for a valid 16-bit mono `fmt ` followed by `data`. -/
def wav_to_pcm (bs : List Nat) : Option (List Int) :=
  match bs with
  | r1 :: r2 :: r3 :: r4 :: rest =>
    if r1 = 82 ∧ r2 = 73 ∧ r3 = 70 ∧ r4 = 70 then
      match readU32 rest with
      | none => none
      | some (_, rest2) =>
        match rest2 with
        | w1 :: w2 :: w3 :: w4 :: rest3 =>
          if w1 = 87 ∧ w2 = 65 ∧ w3 = 86 ∧ w4 = 69 then findChunks bs.length false rest3
          else none
        | _ => none
    else none
  | _ => none

theorem flatten_i16le_length (v : List Int) : (v.map i16le).flatten.length = 2 * v.length := by
  induction v with
  | nil => simp
  | cons s v ih =>
    simp [i16le, ih]
    omega

theorem decode_i16le (s : Int) (h1 : -32768 ≤ s) (h2 : s ≤ 32767) :
    decodeI16 ((s % 65536).toNat % 256) ((s % 65536).toNat / 256) = s := by
  unfold decodeI16
  split_ifs <;> omega

theorem parseSamples_flatten (v : List Int) (h : ∀ s ∈ v, -32768 ≤ s ∧ s ≤ 32767) :
    parseSamples (v.map i16le).flatten = some v := by
  induction v with
  | nil => simp [parseSamples]
  | cons s v ih =>
    have hs := h s (by simp)
    have hrest : ∀ x ∈ v, -32768 ≤ x ∧ x ≤ 32767 := fun x hx => h x (by simp [hx])
    simp only [List.map_cons, List.flatten_cons, i16le, List.cons_append, List.nil_append,
      parseSamples]
    rw [show ([] : List Nat).append ((List.map i16le v).flatten)
        = (List.map i16le v).flatten from rfl]
    rw [ih hrest, decode_i16le s hs.1 hs.2]

theorem readBytes_append (n : Nat) (xs ys : List Nat) (h : xs.length = n) :
    readBytes n (xs ++ ys) = some (xs, ys) := by
  subst h
  simp [readBytes, List.take_left, List.drop_left]

theorem readU32_u32le (x : Nat) (r : List Nat) :
    readU32 (u32le x ++ r) = some (x % 4294967296, r) := by
  simp only [u32le, List.cons_append, List.nil_append, readU32]
  congr 1
  congr 1
  omega

theorem wav_to_pcm_header (R : Nat) (rest3 : List Nat) (fuel : Nat)
    (hf : fuel = 12 + rest3.length) :
    wav_to_pcm ([82, 73, 70, 70] ++ u32le R ++ ([87, 65, 86, 69] ++ rest3)) =
      findChunks fuel false rest3 := by
  subst hf
  simp only [u32le, List.cons_append, List.nil_append, wav_to_pcm, readU32, List.length_cons]
  norm_num
  rw [show 12 + rest3.length = rest3.length + 12 from by omega]

theorem findChunks_fmt (fuel : Nat) (sawFmt : Bool) (rest : List Nat) :
    findChunks (fuel + 1) sawFmt
      ([102, 109, 116, 32] ++ u32le 16
        ++ ((u16le 1 ++ u16le 1 ++ u32le 8000 ++ u32le 16000 ++ u16le 2 ++ u16le 16) ++ rest))
      = findChunks fuel true rest := by
  simp only [u32le, u16le, List.cons_append, List.nil_append, findChunks, readU32]
  norm_num
  rw [show (1 :: 0 :: 1 :: 0 :: 64 :: 31 :: 0 :: 0 :: 128 :: 62 :: 0 :: 0 :: 2 :: 0 :: 16
      :: 0 :: rest) = ([1, 0, 1, 0, 64, 31, 0, 0, 128, 62, 0, 0, 2, 0, 16, 0] ++ rest)
      from rfl]
  rw [readBytes_append 16 _ rest (by rfl)]
  simp [parseFmt]

theorem findChunks_data (fuel : Nat) (n : Nat) (dat : List Nat) (h : dat.length = n)
    (hlt : n < 4294967296) :
    findChunks (fuel + 1) true ([100, 97, 116, 97] ++ u32le n ++ dat)
      = parseSamples dat := by
  simp only [u32le, List.cons_append, List.nil_append, findChunks, readU32]
  norm_num
  rw [show n % 256 + 256 * (n / 256 % 256) + 65536 * (n / 65536 % 256)
      + 16777216 * (n / 16777216 % 256) = n from by omega]
  rw [show dat = dat ++ [] from by simp, readBytes_append n _ [] (by simpa using h)]
  simp

/-- C6: decoding the WAV produced from a vector of 16-bit samples returns
exactly the original samples: `wav_to_pcm (pcm_to_wav v) = some v`.  The
hypotheses record that the samples are `i16` values and that the `data`
chunk's byte count fits the 32-bit RIFF length field. -/
theorem C6_wav_round_trip (v : List Int) (hr : ∀ s ∈ v, -32768 ≤ s ∧ s ≤ 32767)
    (hlen : 2 * v.length < 4294967296) :
    wav_to_pcm (pcm_to_wav v) = some v := by
  have hflat := flatten_i16le_length v
  rw [show pcm_to_wav v
      = [82, 73, 70, 70] ++ u32le (36 + 2 * v.length)
        ++ ([87, 65, 86, 69]
          ++ ([102, 109, 116, 32] ++ u32le 16
            ++ ((u16le 1 ++ u16le 1 ++ u32le 8000 ++ u32le 16000 ++ u16le 2 ++ u16le 16)
              ++ ([100, 97, 116, 97] ++ u32le (2 * v.length) ++ (v.map i16le).flatten))))
      from by simp [pcm_to_wav, List.append_assoc]]
  rw [wav_to_pcm_header _ _ ((43 + 2 * v.length) + 1)
      (by simp [u16le, u32le, hflat]; omega)]
  rw [findChunks_fmt]
  rw [show 43 + 2 * v.length = (42 + 2 * v.length) + 1 from by omega]
  rw [findChunks_data _ (2 * v.length) _ hflat hlen]
  exact parseSamples_flatten v hr

/-- C6 (witness): the WAV round trip evaluated at the concrete sample vector
`[5, -7, 32767, -32768, 0]`. -/
theorem C6_wav_round_trip_witness :
    wav_to_pcm (pcm_to_wav [5, -7, 32767, -32768, 0]) = some [5, -7, 32767, -32768, 0] :=
  C6_wav_round_trip [5, -7, 32767, -32768, 0] (by decide) (by decide)


/-! ## Text splitter: `split_text` from `src/pipeline/tts.rs` (claims C4, C5)

Strings are modelled as lists of Unicode scalar values (`Char`), with the
UTF-8 byte width of each character made explicit, because the Rust code
indexes and slices by *byte* position: `&remaining[..max_chars]` panics when
`max_chars` is not a character boundary.  A panic is the explicit
`SplitResult.panicked`; the non-termination of the loop at `max_chars = 0`
on non-whitespace text is `SplitResult.spin` (the fuel `text.length + 1`
dominates the loop count whenever `max_chars ≥ 1`, since every iteration
consumes at least one character). -/

/-- UTF-8 byte width of a character. -/
def byteSize (c : Char) : Nat :=
  if c.toNat < 128 then 1 else if c.toNat < 2048 then 2 else if c.toNat < 65536 then 3 else 4

def byteLen (s : List Char) : Nat := (s.map byteSize).sum

/-- Rust byte slicing `(&s[..n], &s[n..])`: `none` when `n` is not a char
boundary or exceeds the length (a Rust panic). -/
def splitAtBytes : List Char → Nat → Option (List Char × List Char)
  | s, 0 => some ([], s)
  | [], _ + 1 => none
  | c :: rest, n + 1 =>
    if byteSize c ≤ n + 1 then
      match splitAtBytes rest (n + 1 - byteSize c) with
      | some (a, b) => some (c :: a, b)
      | none => none
    else none

/-- Rust `char::is_whitespace`: the Unicode White_Space set. -/
def isWs (c : Char) : Bool :=
  c.toNat = 9 ∨ c.toNat = 10 ∨ c.toNat = 11 ∨ c.toNat = 12 ∨ c.toNat = 13 ∨ c.toNat = 32
    ∨ c.toNat = 133 ∨ c.toNat = 160 ∨ c.toNat = 5760
    ∨ (8192 ≤ c.toNat ∧ c.toNat ≤ 8202)
    ∨ c.toNat = 8232 ∨ c.toNat = 8233 ∨ c.toNat = 8239 ∨ c.toNat = 8287 ∨ c.toNat = 12288

def trim_start (s : List Char) : List Char := s.dropWhile isWs

/-- Byte offsets just after each `". "`, `"! "`, `"? "` occurrence in `s`,
starting from byte offset `off`. -/
def boundaryEndsFrom (off : Nat) : List Char → List Nat
  | a :: b :: rest =>
      (if (a = '.' ∨ a = '!' ∨ a = '?') ∧ b = ' ' then [off + 2] else [])
        ++ boundaryEndsFrom (off + byteSize a) (b :: rest)
  | _ => []

def maxEnd : List Nat → Option Nat
  | [] => none
  | x :: xs =>
    match maxEnd xs with
    | none => some x
    | some y => some (max x y)

inductive SplitResult where
  | ok : List (List Char) → SplitResult
  | panicked : SplitResult
  | spin : SplitResult
deriving DecidableEq, Repr

def splitTextGo (maxChars : Nat) : Nat → List Char → SplitResult
  | 0, _ => .spin
  | fuel + 1, remaining =>
    if remaining = [] then .ok []
    else if byteLen remaining ≤ maxChars then .ok [remaining]
    else
      match splitAtBytes remaining maxChars with
      | none => .panicked
      | some (window, _) =>
        let pos := (maxEnd (boundaryEndsFrom 0 window)).getD maxChars
        match splitAtBytes remaining pos with
        | none => .panicked
        | some (chunk, rest) =>
          match splitTextGo maxChars fuel (trim_start rest) with
          | .ok cs => .ok (chunk :: cs)
          | r => r

def split_text (text : List Char) (max_chars : Nat) : SplitResult :=
  if byteLen text ≤ max_chars then .ok [text]
  else splitTextGo max_chars (text.length + 1) text

-- sanity checks mirroring the Rust unit tests

theorem byteSize_pos (c : Char) : 1 ≤ byteSize c := by
  unfold byteSize
  split_ifs <;> omega

theorem byteLen_append (a b : List Char) : byteLen (a ++ b) = byteLen a + byteLen b := by
  simp [byteLen]

theorem splitAtBytes_append_len (s : List Char) (n : Nat) (a b : List Char)
    (h : splitAtBytes s n = some (a, b)) : s = a ++ b ∧ byteLen a = n := by
  induction s generalizing n a b with
  | nil =>
    cases n with
    | zero =>
      simp [splitAtBytes] at h
      obtain ⟨rfl, rfl⟩ := h
      simp [byteLen]
    | succ n => simp [splitAtBytes] at h
  | cons c rest ih =>
    cases n with
    | zero =>
      simp [splitAtBytes] at h
      obtain ⟨rfl, rfl⟩ := h
      simp [byteLen]
    | succ n =>
      rw [splitAtBytes] at h
      split at h
      · rename_i hle
        cases hrec : splitAtBytes rest (n + 1 - byteSize c) with
        | none => rw [hrec] at h; simp at h
        | some p =>
          rw [hrec] at h
          cases p with
          | mk a' b' =>
            simp at h
            obtain ⟨ha, hb⟩ := h
            obtain ⟨hs, hl⟩ := ih (n + 1 - byteSize c) a' b' hrec
            subst ha hb
            constructor
            · simp [hs]
            · simp [byteLen] at hl ⊢
              omega
      · simp at h

theorem boundaryEndsFrom_le (s : List Char) : ∀ off : Nat, ∀ q ∈ boundaryEndsFrom off s,
    q ≤ off + byteLen s := by
  induction s with
  | nil => intro off q hq; simp [boundaryEndsFrom] at hq
  | cons a s ih =>
    intro off q hq
    cases s with
    | nil => simp [boundaryEndsFrom] at hq
    | cons b rest =>
      rw [boundaryEndsFrom] at hq
      simp only [List.mem_append] at hq
      rcases hq with hq | hq
      · split at hq
        · rename_i hcond
          simp at hq
          have ha : byteSize a = 1 := by
            rcases hcond.1 with h | h | h <;> subst h <;> rfl
          have hb : byteSize b = 1 := by rw [hcond.2]; rfl
          simp [byteLen, ha, hb] at *
          omega
        · simp at hq
      · have := ih (off + byteSize a) q hq
        simp [byteLen] at this ⊢
        omega

theorem maxEnd_mem (l : List Nat) (p : Nat) (h : maxEnd l = some p) : p ∈ l := by
  induction l generalizing p with
  | nil => simp [maxEnd] at h
  | cons x xs ih =>
    rw [maxEnd] at h
    cases hm : maxEnd xs with
    | none => rw [hm] at h; simp at h; simp [h]
    | some y =>
      rw [hm] at h
      simp at h
      rcases max_cases x y with ⟨heq, _⟩ | ⟨heq, _⟩
      · simp [← h, heq]
      · have hy := ih y hm
        right
        rwa [show p = y from by omega]

theorem maxEnd_ge (l : List Nat) (p : Nat) (h : maxEnd l = some p) :
    ∀ q ∈ l, q ≤ p := by
  induction l generalizing p with
  | nil => simp
  | cons x xs ih =>
    intro q hq
    rw [maxEnd] at h
    cases hm : maxEnd xs with
    | none =>
      rw [hm] at h
      simp at h
      cases xs with
      | nil => simp at hq; omega
      | cons z zs => rw [maxEnd] at hm; cases hmm : maxEnd zs <;> rw [hmm] at hm <;> simp at hm
    | some y =>
      rw [hm] at h
      simp at h
      simp at hq
      rcases hq with hq | hq
      · omega
      · have := ih y hm q hq
        omega

theorem maxEnd_none (l : List Nat) (h : maxEnd l = none) : l = [] := by
  cases l with
  | nil => rfl
  | cons x xs => rw [maxEnd] at h; cases hm : maxEnd xs <;> rw [hm] at h <;> simp at h

theorem trim_start_decomp (s : List Char) :
    ∃ w, (∀ x ∈ w, isWs x = true) ∧ s = w ++ trim_start s := by
  refine ⟨s.takeWhile isWs, ?_, ?_⟩
  · intro x hx
    exact List.mem_takeWhile_imp hx
  · rw [trim_start, List.takeWhile_append_dropWhile]

theorem trim_start_head (s : List Char) (d : Char) (tl : List Char)
    (h : trim_start s = d :: tl) : isWs d = false := by
  induction s with
  | nil => simp [trim_start] at h
  | cons x xs ih =>
    rw [trim_start, List.dropWhile] at h
    cases hw : isWs x with
    | true => rw [hw] at h; exact ih h
    | false =>
      rw [hw] at h
      simp at h
      rw [← h.1]
      exact hw

theorem trim_start_nil (s : List Char) (h : trim_start s = []) :
    ∀ x ∈ s, isWs x = true := by
  rw [trim_start, List.dropWhile_eq_nil_iff] at h
  simpa using h

/-- Spec-side description of one cut: when the L-byte window at the head of
`r` contains a sentence boundary, the chunk ends at the right-most boundary
end; otherwise it is a hard cut of exactly L bytes. -/
def CutPrefersBoundary (L : Nat) (r c : List Char) : Prop :=
  ∀ w rest, splitAtBytes r L = some (w, rest) →
    ((boundaryEndsFrom 0 w = [] ∧ byteLen c = L)
      ∨ (byteLen c ∈ boundaryEndsFrom 0 w ∧ ∀ q ∈ boundaryEndsFrom 0 w, q ≤ byteLen c))

/-- Spec-side description of the whole split: every chunk is at most L
bytes; the text is the chunks interleaved with trimmed whitespace runs;
every non-final cut prefers the right-most sentence boundary in its
window. -/
def SplitSpec (L : Nat) : List Char → List (List Char) → Prop
  | t, [] => t = []
  | t, [c] => byteLen c ≤ L ∧
      (t = c ∨ (¬ byteLen t ≤ L ∧ CutPrefersBoundary L t c ∧
        ∃ w, (∀ x ∈ w, isWs x = true) ∧ t = c ++ w))
  | t, c :: cs => byteLen c ≤ L ∧ ¬ byteLen t ≤ L ∧ CutPrefersBoundary L t c ∧
      ∃ w t', (∀ x ∈ w, isWs x = true) ∧ t = c ++ w ++ t'
        ∧ (∀ d tl, t' = d :: tl → isWs d = false) ∧ SplitSpec L t' cs

theorem splitTextGo_spec (L : Nat) (fuel : Nat) : ∀ t cs,
    splitTextGo L fuel t = .ok cs → SplitSpec L t cs := by
  induction fuel with
  | zero => intro t cs h; rw [splitTextGo] at h; simp at h
  | succ fuel ih =>
    intro t cs h
    rw [splitTextGo] at h
    split at h
    · rename_i ht
      simp at h
      subst ht h
      rfl
    · split at h
      · rename_i ht hle
        simp at h
        subst h
        exact ⟨hle, Or.inl rfl⟩
      · rename_i ht hle
        cases hw : splitAtBytes t L with
        | none => rw [hw] at h; simp at h
        | some wp =>
          rw [hw] at h
          cases wp with
          | mk window rest0 =>
            simp only at h
            cases hc : splitAtBytes t ((maxEnd (boundaryEndsFrom 0 window)).getD L) with
            | none => rw [hc] at h; simp at h
            | some cp =>
              rw [hc] at h
              cases cp with
              | mk chunk rest =>
                simp only at h
                cases hr : splitTextGo L fuel (trim_start rest) with
                | ok cs' =>
                  rw [hr] at h
                  simp at h
                  subst h
                  obtain ⟨hteq, hclen⟩ := splitAtBytes_append_len t _ chunk rest hc
                  obtain ⟨hweq, hwlen⟩ := splitAtBytes_append_len t L window rest0 hw
                  have hposle : (maxEnd (boundaryEndsFrom 0 window)).getD L ≤ L := by
                    cases hme : maxEnd (boundaryEndsFrom 0 window) with
                    | none => simp
                    | some p =>
                      simp only [Option.getD_some]
                      have := boundaryEndsFrom_le window 0 p (maxEnd_mem _ _ hme)
                      omega
                  have hcut : CutPrefersBoundary L t chunk := by
                    intro w' rest' hw'
                    rw [hw] at hw'
                    simp at hw'
                    obtain ⟨hw1, hw2⟩ := hw'
                    subst hw1 hw2
                    cases hme : maxEnd (boundaryEndsFrom 0 window) with
                    | none =>
                      left
                      refine ⟨maxEnd_none _ hme, ?_⟩
                      rw [hme] at hclen
                      simpa using hclen
                    | some p =>
                      right
                      rw [hme] at hclen
                      simp at hclen
                      subst hclen
                      exact ⟨maxEnd_mem _ _ hme, maxEnd_ge _ _ hme⟩
                  have ihspec := ih (trim_start rest) cs' hr
                  obtain ⟨wtrim, hwtrim, hrestdecomp⟩ := trim_start_decomp rest
                  cases cs' with
                  | nil =>
                    have htrimnil : trim_start rest = [] := ihspec
                    refine ⟨by omega, Or.inr ⟨hle, hcut, rest, ?_, hteq⟩⟩
                    exact trim_start_nil rest htrimnil
                  | cons c' cs'' =>
                    refine ⟨by omega, hle, hcut, wtrim, trim_start rest,
                      hwtrim, ?_, ?_, ihspec⟩
                    · rw [hteq]
                      conv_lhs => rw [hrestdecomp]
                      simp
                    · intro d tl hdtl
                      exact trim_start_head rest d tl hdtl
                | panicked => rw [hr] at h; simp at h
                | spin => rw [hr] at h; simp at h

/-- C4 (amended): for every text `t` and limit `L`, whenever `split_text`
returns (no byte-boundary panic, no spin at `L = 0`), every chunk is at most
`L` bytes, concatenating the chunks reconstructs `t` except for the trimmed
run of leading whitespace after *each cut* (sentence-boundary or hard), and
every non-final cut is at the right-most sentence boundary of its window
when one exists, else a hard cut of exactly `L` bytes. -/
theorem C4_split_text_spec (t : List Char) (L : Nat) (cs : List (List Char))
    (h : split_text t L = .ok cs) : SplitSpec L t cs := by
  rw [split_text] at h
  split at h
  · rename_i hle
    simp at h
    subst h
    exact ⟨hle, Or.inl rfl⟩
  · exact splitTextGo_spec L (t.length + 1) t cs h

/-- C4 (counterexample): on `t = "ab cd"` with limit 2 the splitter returns
`["ab", "cd"]`: the space was trimmed after a *hard* cut although `t`
contains no sentence boundary at all, so the chunks do not reconstruct `t`
"except for the single trim of leading whitespace after each sentence
boundary" as claimed. -/
theorem C4_trim_after_hard_cut : split_text ['a', 'b', ' ', 'c', 'd'] 2 = .ok [['a', 'b'], ['c', 'd']]
    ∧ [['a', 'b'], ['c', 'd']].flatten ≠ ['a', 'b', ' ', 'c', 'd']
    ∧ boundaryEndsFrom 0 ['a', 'b', ' ', 'c', 'd'] = [] := by
  refine ⟨by decide, by decide, by decide⟩

/-- C4 (witness): the amended splitter specification instantiated on
`"One. Two"` with limit 6, which splits at the sentence boundary into
`["One. ", "Two"]`. -/
theorem C4_split_text_spec_witness : SplitSpec 6 ['O', 'n', 'e', '.', ' ', 'T', 'w', 'o']
    [['O', 'n', 'e', '.', ' '], ['T', 'w', 'o']] :=
  C4_split_text_spec _ 6 _ (by decide)

theorem byteLen_cons (c : Char) (l : List Char) : byteLen (c :: l) = byteSize c + byteLen l := by
  simp [byteLen]

theorem byteLen_replicate_eacute (n : Nat) : byteLen (List.replicate n 'é') = 2 * n := by
  induction n with
  | zero => rfl
  | succ n ih =>
    rw [List.replicate_succ, byteLen_cons, ih]
    rw [show byteSize 'é' = 2 from rfl]
    omega

theorem splitAtBytes_replicate_odd : ∀ n k : Nat, 2 * k + 1 ≤ 2 * n →
    splitAtBytes (List.replicate n 'é') (2 * k + 1) = none := by
  intro n
  induction n with
  | zero => intro k hk; omega
  | succ n ih =>
    intro k hk
    rw [List.replicate_succ, splitAtBytes]
    rw [show byteSize 'é' = 2 from rfl]
    cases k with
    | zero => simp
    | succ k =>
      rw [if_pos (by omega)]
      rw [show 2 * (k + 1) + 1 - 2 = 2 * k + 1 from by omega]
      rw [ih k (by omega)]

/-- C5: `split_text` does *not* return normally on every UTF-8 string: on
the 2001-byte string `"a" ++ "é" * 1000` with the production limit 2000,
the slice `&remaining[..2000]` falls inside the final two-byte `é` and the
code panics. -/
theorem C5_split_text_panics : split_text ('a' :: List.replicate 1000 'é') 2000 = .panicked := by
  have hbl : byteLen ('a' :: List.replicate 1000 'é') = 2001 := by
    rw [byteLen_cons, byteLen_replicate_eacute]
    rfl
  rw [split_text, if_neg (by omega)]
  rw [splitTextGo]
  rw [if_neg (List.cons_ne_nil _ _), if_neg (by omega)]
  have hsplit : splitAtBytes ('a' :: List.replicate 1000 'é') 2000 = none := by
    rw [show (2000 : Nat) = 1999 + 1 from rfl, splitAtBytes]
    rw [show byteSize 'a' = 1 from rfl, if_pos (by omega)]
    rw [show 1999 + 1 - 1 = 2 * 999 + 1 from rfl]
    rw [splitAtBytes_replicate_odd 1000 999 (by omega)]
  rw [hsplit]


/-! ## Voice activity detector: `src/pipeline/vad.rs` (claims C7, C8, C10)

The VAD state is embedded field-for-field.  `f64` energies, thresholds and
decay factors are exact rationals; `Instant` / `Duration` become rational
timestamps passed to each step.  The bandpass filter and RMS computation
(`bandpass.filter` + `rms_energy`) are pure `f64` DSP whose output feeds
only the energy comparison, so each `feed` step takes the band-filtered
energy of its chunk as an explicit input - exactly the quantity the claims
quantify over.  The `pcm_buffer`, in contrast, holds the real decoded
samples: `decode_mulaw` is the executable integer decoder from above. -/
structure VadState where
  pcm_buffer : List Int
  has_speech : Bool
  last_speech_at : Option ℚ
  utterance_start : Option ℚ
  energy_threshold : ℚ
  silence_threshold : ℚ
  max_utterance_duration : Option ℚ
  adaptive : Bool
  noise_floor : ℚ
  noise_floor_multiplier : ℚ
  noise_floor_decay : ℚ
deriving DecidableEq

def vad_new (energy_threshold : Nat) (silence_threshold_ms : Nat) : VadState :=
  { pcm_buffer := []
    has_speech := false
    last_speech_at := none
    utterance_start := none
    energy_threshold := energy_threshold
    silence_threshold := silence_threshold_ms
    max_utterance_duration := none
    adaptive := false
    noise_floor := 0
    noise_floor_multiplier := 3
    noise_floor_decay := 995 / 1000 }

def with_adaptive (s : VadState) (multiplier decay : ℚ) : VadState :=
  { s with adaptive := true, noise_floor_multiplier := multiplier, noise_floor_decay := decay }

def with_max_utterance (s : VadState) (secs : Nat) : VadState :=
  { s with max_utterance_duration := some (1000 * secs) }

def speech_threshold (s : VadState) : ℚ :=
  if s.adaptive = true ∧ 0 < s.noise_floor then
    max (s.noise_floor * s.noise_floor_multiplier) s.energy_threshold
  else s.energy_threshold

def update_noise_floor (s : VadState) (energy : ℚ) : VadState :=
  if s.adaptive = false then s
  else if s.noise_floor = 0 then { s with noise_floor := energy }
  else { s with noise_floor :=
          s.noise_floor_decay * s.noise_floor + (1 - s.noise_floor_decay) * energy }

def take_utterance (s : VadState) : VadState × List Int :=
  ({ s with pcm_buffer := [], has_speech := false, last_speech_at := none,
            utterance_start := none },
    s.pcm_buffer)

def emits_max (s : VadState) (now : ℚ) : Bool :=
  match s.max_utterance_duration, s.utterance_start with
  | some maxDur, some start => now - start ≥ maxDur
  | _, _ => false

def emits_silence (s : VadState) (now : ℚ) : Bool :=
  match s.last_speech_at with
  | some last => now - last ≥ s.silence_threshold
  | none => false

/-- Speech-detection phase of `feed` (the `if energy > threshold` block):
marks speech and timestamps, or updates the noise floor during silence. -/
def detect_speech (s : VadState) (energy now : ℚ) : VadState :=
  if energy > speech_threshold s then
    { s with utterance_start := if s.has_speech = false then some now else s.utterance_start,
             has_speech := true,
             last_speech_at := some now }
  else if s.has_speech = false then update_noise_floor s energy
  else s

/-- Emission phase of `feed`: max-duration emit, silence-gap emit, or the
5-second silent-buffer clear. -/
def emit_or_clear (s2 : VadState) (now : ℚ) : VadState × Option (List Int) :=
  if s2.has_speech = true then
    if emits_max s2 now then ((take_utterance s2).1, some (take_utterance s2).2)
    else if emits_silence s2 now then ((take_utterance s2).1, some (take_utterance s2).2)
    else (s2, none)
  else if s2.pcm_buffer.length > 8000 * 5 then ({ s2 with pcm_buffer := [] }, none)
  else (s2, none)

/-- `VoiceActivityDetector::feed` from `vad.rs`: decode the chunk, append the
raw PCM to the buffer, detect speech on the supplied band-filtered energy,
then emit or clear. -/
def feed (s : VadState) (mulaw_chunk : List Nat) (energy now : ℚ) :
    VadState × Option (List Int) :=
  emit_or_clear
    (detect_speech { s with pcm_buffer := s.pcm_buffer ++ decode_mulaw mulaw_chunk } energy now)
    now

def reset (s : VadState) : VadState :=
  { s with pcm_buffer := [], has_speech := false, last_speech_at := none,
           utterance_start := none }

/-- The 5-second silent-buffer clear condition of one `feed` step. -/
def ClearFires (s : VadState) (mulaw_chunk : List Nat) (energy now : ℚ) : Prop :=
  (detect_speech { s with pcm_buffer := s.pcm_buffer ++ decode_mulaw mulaw_chunk }
      energy now).has_speech = false
    ∧ 8000 * 5 < s.pcm_buffer.length + (decode_mulaw mulaw_chunk).length

def feed_trace (s : VadState) : List (List Nat × ℚ × ℚ) → VadState × List (Option (List Int))
  | [] => (s, [])
  | (chunk, energy, now) :: rest =>
    let p := feed s chunk energy now
    let q := feed_trace p.1 rest
    (q.1, p.2 :: q.2)

def silent_steps : VadState → List (List Nat × ℚ × ℚ) → Prop
  | _, [] => True
  | s, (c, e, n) :: rest => e ≤ speech_threshold s ∧ silent_steps (feed s c e n).1 rest

def quiet_steps : VadState → List (List Nat × ℚ × ℚ) → Prop
  | _, [] => True
  | s, (c, e, n) :: rest =>
      ¬ ClearFires s c e n ∧ (feed s c e n).2 = none
        ∧ quiet_steps (feed s c e n).1 rest

theorem update_noise_floor_fields (s : VadState) (e : ℚ) :
    (update_noise_floor s e).has_speech = s.has_speech
      ∧ (update_noise_floor s e).pcm_buffer = s.pcm_buffer := by
  unfold update_noise_floor
  split_ifs <;> exact ⟨rfl, rfl⟩

theorem detect_speech_buffer (s : VadState) (e n : ℚ) :
    (detect_speech s e n).pcm_buffer = s.pcm_buffer := by
  unfold detect_speech
  split_ifs <;> first | rfl | exact (update_noise_floor_fields _ _).2

theorem detect_speech_silent (s : VadState) (e n : ℚ) (hs : s.has_speech = false)
    (he : e ≤ speech_threshold s) : (detect_speech s e n).has_speech = false := by
  unfold detect_speech
  rw [if_neg (not_lt.2 he), if_pos hs]
  rw [(update_noise_floor_fields _ _).1]
  exact hs

theorem emit_or_clear_none (s2 : VadState) (n : ℚ) (hs : s2.has_speech = false) :
    (emit_or_clear s2 n).2 = none ∧ (emit_or_clear s2 n).1.has_speech = false := by
  unfold emit_or_clear
  rw [if_neg (by simp [hs])]
  split_ifs <;> simp [hs]

theorem feed_silent_step (s : VadState) (c : List Nat) (e n : ℚ)
    (hs : s.has_speech = false) (he : e ≤ speech_threshold s) :
    (feed s c e n).2 = none ∧ (feed s c e n).1.has_speech = false := by
  unfold feed
  have hth : speech_threshold { s with pcm_buffer := s.pcm_buffer ++ decode_mulaw c }
      = speech_threshold s := rfl
  have hdet := detect_speech_silent
    { s with pcm_buffer := s.pcm_buffer ++ decode_mulaw c } e n hs (hth ▸ he)
  exact emit_or_clear_none _ n hdet

/-- C7: feeding the VAD only silence never emits an utterance: starting from
any state without detected speech, if every fed chunk's band-filtered energy
is at most the state's effective speech threshold at that point, every
`feed` call returns no emission and `has_speech` remains false. -/
theorem C7_vad_silence_no_emission (ins : List (List Nat × ℚ × ℚ)) : ∀ s : VadState,
    s.has_speech = false → silent_steps s ins →
    (∀ o ∈ (feed_trace s ins).2, o = none) ∧ (feed_trace s ins).1.has_speech = false := by
  induction ins with
  | nil =>
    intro s hs _
    exact ⟨by simp [feed_trace], hs⟩
  | cons i rest ih =>
    intro s hs hsilent
    obtain ⟨c, e, n⟩ := i
    obtain ⟨he, hrest⟩ := hsilent
    obtain ⟨hnone, hspeech⟩ := feed_silent_step s c e n hs he
    obtain ⟨ih1, ih2⟩ := ih (feed s c e n).1 hspeech hrest
    constructor
    · intro o ho
      rw [feed_trace] at ho
      simp at ho
      rcases ho with ho | ho
      · rw [ho, hnone]
      · exact ih1 o ho
    · rw [feed_trace]
      exact ih2

/-- C8: when adaptive mode is enabled and the noise floor is positive, the
effective speech threshold equals `max(energy_threshold, noise_floor *
multiplier)` and hence is at least `noise_floor * multiplier`; otherwise it
equals the base `energy_threshold`. -/
theorem C8_speech_threshold (s : VadState) :
    (s.adaptive = true → 0 < s.noise_floor →
      speech_threshold s = max s.energy_threshold (s.noise_floor * s.noise_floor_multiplier)
        ∧ s.noise_floor * s.noise_floor_multiplier ≤ speech_threshold s)
    ∧ (s.adaptive = false ∨ s.noise_floor ≤ 0 → speech_threshold s = s.energy_threshold) := by
  unfold speech_threshold
  constructor
  · intro ha hn
    rw [if_pos ⟨ha, hn⟩]
    exact ⟨max_comm _ _, le_max_left _ _⟩
  · intro h
    rcases h with h | h
    · rw [if_neg]
      rintro ⟨h1, _⟩
      rw [h] at h1
      exact Bool.false_ne_true h1
    · rw [if_neg]
      rintro ⟨_, h2⟩
      exact absurd h (not_le.2 h2)

theorem emit_or_clear_some (s2 : VadState) (n : ℚ) (u : List Int)
    (h : (emit_or_clear s2 n).2 = some u) : u = s2.pcm_buffer := by
  unfold emit_or_clear at h
  split_ifs at h <;> simp [take_utterance] at h <;> exact h.symm

theorem feed_emit_buffer (s : VadState) (c : List Nat) (e n : ℚ) (u : List Int)
    (h : (feed s c e n).2 = some u) : u = s.pcm_buffer ++ decode_mulaw c := by
  unfold feed at h
  have := emit_or_clear_some _ n u h
  rw [this, detect_speech_buffer]

theorem emit_or_clear_none_buffer (s2 : VadState) (n : ℚ)
    (hnone : (emit_or_clear s2 n).2 = none)
    (hnc : ¬ (s2.has_speech = false ∧ 8000 * 5 < s2.pcm_buffer.length)) :
    (emit_or_clear s2 n).1.pcm_buffer = s2.pcm_buffer := by
  unfold emit_or_clear at hnone ⊢
  split_ifs at hnone ⊢ with h1 h2 h3 h4 <;>
    first
      | rfl
      | exact absurd ⟨by simpa using h1, by simpa using h4⟩ hnc

theorem feed_no_emit_buffer (s : VadState) (c : List Nat) (e n : ℚ)
    (hclear : ¬ ClearFires s c e n) (hnone : (feed s c e n).2 = none) :
    (feed s c e n).1.pcm_buffer = s.pcm_buffer ++ decode_mulaw c := by
  unfold feed at hnone ⊢
  rw [emit_or_clear_none_buffer _ n hnone ?_, detect_speech_buffer]
  intro hcc
  apply hclear
  unfold ClearFires
  refine ⟨hcc.1, ?_⟩
  have h2 := hcc.2
  rw [detect_speech_buffer] at h2
  simpa using h2

theorem quiet_steps_buffer (ins : List (List Nat × ℚ × ℚ)) : ∀ s : VadState,
    quiet_steps s ins →
    (feed_trace s ins).1.pcm_buffer
      = s.pcm_buffer ++ decode_mulaw ((ins.map Prod.fst).flatten) := by
  induction ins with
  | nil => intro s _; simp [feed_trace, decode_mulaw]
  | cons i rest ih =>
    intro s hq
    obtain ⟨c, e, n⟩ := i
    obtain ⟨hnc, hnone, hrest⟩ := hq
    rw [feed_trace]
    simp only
    rw [ih _ hrest, feed_no_emit_buffer s c e n hnc hnone]
    simp [decode_mulaw]

/-- C10: an emitted utterance is exactly the concatenation of
`decode_mulaw` applied to every chunk fed since the last emission or reset,
provided no intermediate step emitted and the 5-second silent-buffer clear
never fired; the emitted audio is the raw decoded samples (the bandpass
filter output feeds only the energy calculation, never the buffer). -/
theorem C10_utterance_is_all_decoded_audio (s : VadState) (ins : List (List Nat × ℚ × ℚ))
    (c : List Nat) (e n : ℚ) (u : List Int)
    (hbuf : s.pcm_buffer = []) (hq : quiet_steps s ins)
    (hemit : (feed (feed_trace s ins).1 c e n).2 = some u) :
    u = decode_mulaw ((ins.map Prod.fst).flatten ++ c) := by
  have h1 := feed_emit_buffer _ c e n u hemit
  rw [h1, quiet_steps_buffer ins s hq, hbuf]
  simp [decode_mulaw]

/-- C7 (witness): a fresh detector fed one zero-energy chunk emits nothing
and stays out of speech. -/
theorem C7_vad_silence_no_emission_witness :
    (∀ o ∈ (feed_trace (vad_new 50 500) [([0], 0, 0)]).2, o = none)
      ∧ (feed_trace (vad_new 50 500) [([0], 0, 0)]).1.has_speech = false :=
  C7_vad_silence_no_emission [([0], 0, 0)] (vad_new 50 500) rfl
    ⟨by decide, trivial⟩

/-- C8 (witness): the threshold formula evaluated on an adaptive detector
whose noise floor has been seeded to 10. -/
theorem C8_speech_threshold_witness :
    speech_threshold (update_noise_floor (with_adaptive (vad_new 50 500) 3 (99 / 100)) 10)
        = max (update_noise_floor (with_adaptive (vad_new 50 500) 3 (99 / 100))
                10).energy_threshold
            ((update_noise_floor (with_adaptive (vad_new 50 500) 3 (99 / 100)) 10).noise_floor
              * (update_noise_floor (with_adaptive (vad_new 50 500) 3
                  (99 / 100)) 10).noise_floor_multiplier)
      ∧ (update_noise_floor (with_adaptive (vad_new 50 500) 3 (99 / 100)) 10).noise_floor
          * (update_noise_floor (with_adaptive (vad_new 50 500) 3
              (99 / 100)) 10).noise_floor_multiplier
        ≤ speech_threshold (update_noise_floor (with_adaptive (vad_new 50 500) 3 (99 / 100)) 10) :=
  (C8_speech_threshold _).1 (by decide) (by decide)

/-- C10 (witness): with a zero max-utterance duration, the first loud chunk
is emitted immediately and equals its own decoding. -/
theorem C10_utterance_witness :
    decode_mulaw [255]
      = decode_mulaw (((([] : List (List Nat × ℚ × ℚ)).map Prod.fst).flatten) ++ [255]) :=
  C10_utterance_is_all_decoded_audio (with_max_utterance (vad_new 50 500) 0) [] [255] 100 7
    (decode_mulaw [255]) rfl trivial (by
      norm_num [feed, feed_trace, detect_speech, emit_or_clear, emits_max, emits_silence,
        take_utterance, speech_threshold, update_noise_floor, vad_new, with_max_utterance,
        decode_mulaw, mulaw_to_pcm])

example : speech_threshold (with_max_utterance (vad_new 50 500) 0) = 50 := by decide
example : ((100 : ℚ) > speech_threshold (with_max_utterance (vad_new 50 500) 0)) := by decide


/-! ## Call registry and the Twilio media session: `registry.rs`,
`twilio/media.rs` (claim C2)

`handle_media_stream` is a `select!` loop; its inbound-event handling is
embedded as a step function on the session state.  The spawned tasks
(greeting, pipeline) perform TTS/STT/generator calls and channel sends but
no registry operations, and base64-decode failures skip the frame, so the
`media` event carries the decoded bytes plus the VAD oracle inputs.  The
registry is the set of registered call sids, carried in the state so that
every step's effect on it is visible. -/

inductive StreamEvent where
  | connected
  | start (stream_sid : String) (call_sid : String)
  | media (payload : List Nat) (energy : ℚ) (now : ℚ)
  | mark
  | stop

structure TwilioSession where
  call_sid : String
  stream_sid : String
  speaking : Bool
  vad : VadState
  registry : List String
  claude_sessions : List String

def initial_session : TwilioSession :=
  { call_sid := "", stream_sid := "", speaking := false, vad := vad_new 50 500,
    registry := [], claude_sessions := [] }

/-- The event arms of `handle_media_stream` from `twilio/media.rs`.  `Start`
records the ids and spawns the greeting task; `Media` drops the frame while
`speaking`, else feeds the VAD (an emission spawns the pipeline task);
`Mark` clears `speaking` and resets the VAD; `Stop` ends the generator
session and breaks the loop (the returned flag).  No arm touches the call
registry. -/
def handle_stream_event (s : TwilioSession) (ev : StreamEvent) : TwilioSession × Bool :=
  match ev with
  | .connected => (s, false)
  | .start sid csid => ({ s with call_sid := csid, stream_sid := sid }, false)
  | .media payload energy now =>
    if s.speaking = true then (s, false)
    else ({ s with vad := (feed s.vad payload energy now).1 }, false)
  | .mark => ({ s with speaking := false, vad := reset s.vad }, false)
  | .stop => ({ s with claude_sessions := s.claude_sessions.erase s.call_sid }, true)

/-- C2: contrary to the claim, the telephony media stream handler never
creates (nor removes) a call registry entry: every event leaves the registry
component unchanged, and concretely, after handling Stream-Start for call
"CA1" the registry still does not contain "CA1" - so registry membership
cannot coincide with the call being live.  (Only the Discord handler in
`discord/stream.rs` calls `register`/`deregister`.) -/
theorem C2_registry_never_updated :
    (∀ (s : TwilioSession) (ev : StreamEvent),
      (handle_stream_event s ev).1.registry = s.registry)
    ∧ (handle_stream_event initial_session (StreamEvent.start "MZ1" "CA1")).1.registry = []
    ∧ ¬ "CA1" ∈ (handle_stream_event initial_session
        (StreamEvent.start "MZ1" "CA1")).1.registry := by
  refine ⟨?_, rfl, by simp [handle_stream_event, initial_session]⟩
  intro s ev
  cases ev with
  | connected => rfl
  | start sid csid => rfl
  | media p e n =>
    simp only [handle_stream_event]
    split_ifs <;> rfl
  | mark => rfl
  | stop => rfl

/-! ## Generator session serialisation: `ClaudeBridge::send` from
`pipeline/claude.rs` (claim C3)

The lock discipline of `send` is embedded as its sequence of session-store
and mutex operations in source order; a mutex-respecting interleaving
semantics of two concurrent `send` calls exhibits the schedules the claim
says cannot happen. -/

inductive SendAction where
  | lock
  | unlock
  | evict
  | read_conv
  | touch
  | external_call
  | store_conv
deriving DecidableEq

/-- `ClaudeBridge::send` in source order: take the sessions mutex; evict
expired sessions; read the stored `conversation_id` (the `-r` argument);
touch `last_used`; `drop(sessions)` - explicitly releasing the lock; run
the claude CLI; re-take the mutex; store the returned `session_id`; release
on scope exit. -/
def send_actions : List SendAction :=
  [.lock, .evict, .read_conv, .touch, .unlock, .external_call, .lock, .store_conv, .unlock]

/-- Lock depth after executing a prefix of actions. -/
def lock_depth (l : List SendAction) : Int :=
  l.foldl (fun d a => match a with | .lock => d + 1 | .unlock => d - 1 | _ => d) 0

/-- The claim's property: the mutex is held at every point from the read of
the stored `conversation_id` to the store of the new one. -/
def held_from_read_to_store (prog : List SendAction) : Prop :=
  ∀ i j, prog.get? i = some .read_conv → prog.get? j = some .store_conv →
    ∀ k, i ≤ k → k ≤ j → 1 ≤ lock_depth (prog.take k)

structure TwoThreads where
  restA : List SendAction
  restB : List SendAction
  lock_holder : Option Bool
  log : List (Bool × SendAction)

/-- One thread executes its next action; taking the lock blocks while the
other thread holds it. -/
def thread_step (rest : List SendAction) (holder : Option Bool) (tid : Bool) :
    Option (List SendAction × Option Bool) :=
  match rest with
  | [] => none
  | a :: tail =>
    match a with
    | .lock =>
      match holder with
      | none => some (tail, some tid)
      | some _ => none
    | .unlock => some (tail, none)
    | _ => some (tail, holder)

/-- Run a schedule (which thread steps next) over two concurrent `send`
calls; returns the completed event log when the schedule is valid and both
threads finish. -/
def run_schedule : TwoThreads → List Bool → Option (List (Bool × SendAction))
  | st, [] => if st.restA = [] ∧ st.restB = [] then some st.log.reverse else none
  | st, tid :: sched =>
    let rest := if tid then st.restB else st.restA
    match rest with
    | [] => none
    | a :: _ =>
      match thread_step rest st.lock_holder tid with
      | none => none
      | some (tail, holder) =>
        run_schedule
          { restA := if tid then st.restA else tail
            restB := if tid then tail else st.restB
            lock_holder := holder
            log := (tid, a) :: st.log } sched

def two_sends_start : TwoThreads :=
  { restA := send_actions, restB := send_actions, lock_holder := none, log := [] }

/-- Both threads read the stored conversation id before either stores its
new one. -/
def reads_interleave_stores (log : List (Bool × SendAction)) : Prop :=
  ∃ ia ib ja jb, log.get? ia = some (false, .read_conv)
    ∧ log.get? ib = some (true, .read_conv)
    ∧ log.get? ja = some (false, .store_conv)
    ∧ log.get? jb = some (true, .store_conv)
    ∧ ia < jb ∧ ib < ja

/-- C3 (counterexample): the session-store mutex is *not* held from the read
of `conversation_id` to the store of the new one - `send` drops the lock
before the generator call (action index 5 runs at lock depth 0) - and a
legal mutex-respecting schedule of two concurrent `send` calls for the same
call id makes both reads happen before either store. -/
theorem C3_lock_not_held_across :
    ¬ held_from_read_to_store send_actions
    ∧ ∃ sched log, run_schedule two_sends_start sched = some log
        ∧ reads_interleave_stores log := by
  constructor
  · intro h
    have := h 2 7 (by decide) (by decide) 5 (by omega) (by omega)
    simp [send_actions, lock_depth] at this
  · refine ⟨[false, false, false, false, false,
             true, true, true, true, true,
             false, false, false, false,
             true, true, true, true],
      [(false, .lock), (false, .evict), (false, .read_conv), (false, .touch), (false, .unlock),
       (true, .lock), (true, .evict), (true, .read_conv), (true, .touch), (true, .unlock),
       (false, .external_call), (false, .lock), (false, .store_conv), (false, .unlock),
       (true, .external_call), (true, .lock), (true, .store_conv), (true, .unlock)],
      by decide, 2, 7, 12, 16, rfl, rfl, rfl, rfl, by omega, by omega⟩

/-- C3 (amended): `send` reads `conversation_id` under the mutex, releases
the mutex before the external generator invocation (per the design rule
that the store mutex is never held across an external request), and
re-acquires it to store the new `conversation_id`; generator requests for
one call are therefore not serialised by this mutex and concurrent sends
may interleave their read and store. -/
theorem C3_lock_released_during_generator :
    send_actions.get? 2 = some .read_conv ∧ lock_depth (send_actions.take 2) = 1
    ∧ send_actions.get? 5 = some .external_call ∧ lock_depth (send_actions.take 5) = 0
    ∧ send_actions.get? 7 = some .store_conv ∧ lock_depth (send_actions.take 7) = 1 := by
  decide

/-! ## Cross-channel injection: `handle_inject` from `api/inject.rs`
(claim C9)

The handler's control flow is embedded with its two external effects (TTS
synthesis, `CallRegistry::send_audio`) supplied as environment outcomes; the
ordered effect list makes "speaking is set before the audio is sent"
checkable, and `final_speaking` folds the speaking writes over an entry's
flag. -/

inductive Transport where
  | twilio
  | discord
deriving DecidableEq

structure CallEntryM where
  stream_sid : String
  transport : Transport
  speaking : Bool
deriving DecidableEq

inductive InjectEvent where
  | tts_call (text : String)
  | set_speaking (value : Bool)
  | send_audio
deriving DecidableEq

structure InjectResult where
  status : Nat
  events : List InjectEvent
deriving DecidableEq

structure InjectEnv where
  registry : List (String × CallEntryM)
  authorized : Bool
  tts : Except String (List Nat)
  send_ok : Bool

/-- `handle_inject` from `api/inject.rs`: check auth; look the call up in
the registry (404 before any TTS call on a miss); synthesize (500 on TTS
failure); `set_speaking(true)`; `send_audio`; on a send failure
`set_speaking(false)` and 500; else 200. -/
def handle_inject (env : InjectEnv) (call_sid : String) (text : String) : InjectResult :=
  if env.authorized = false then { status := 401, events := [] }
  else
    match env.registry.lookup call_sid with
    | none => { status := 404, events := [] }
    | some _entry =>
      match env.tts with
      | .error _ => { status := 500, events := [.tts_call text] }
      | .ok _audio =>
        if env.send_ok = false then
          { status := 500
            events := [.tts_call text, .set_speaking true, .send_audio, .set_speaking false] }
        else
          { status := 200
            events := [.tts_call text, .set_speaking true, .send_audio] }

/-- Fold the handler's speaking writes over an entry's initial flag. -/
def final_speaking (initial : Bool) (events : List InjectEvent) : Bool :=
  events.foldl (fun sp e => match e with | .set_speaking v => v | _ => sp) initial

/-- C9: an authorized inject request returns 404 with no TTS call and no
state change when the call sid is not registered; on a found call with
successful TTS, the handler sets `speaking` to true before `send_audio`
(visible in the ordered effect list), and a failed send clears `speaking`
back to false and returns 500, while a successful send returns 200 with
`speaking` left true. -/
theorem C9_inject_behaviour (env : InjectEnv) (c t : String)
    (hauth : env.authorized = true) :
    (env.registry.lookup c = none →
      handle_inject env c t = { status := 404, events := [] })
    ∧ (∀ entry audio, env.registry.lookup c = some entry → env.tts = .ok audio →
        env.send_ok = false →
        handle_inject env c t
          = { status := 500
              events := [.tts_call t, .set_speaking true, .send_audio, .set_speaking false] }
          ∧ final_speaking entry.speaking (handle_inject env c t).events = false)
    ∧ (∀ entry audio, env.registry.lookup c = some entry → env.tts = .ok audio →
        env.send_ok = true →
        handle_inject env c t
          = { status := 200, events := [.tts_call t, .set_speaking true, .send_audio] }) := by
  refine ⟨?_, ?_, ?_⟩
  · intro hnone
    unfold handle_inject
    rw [if_neg (by simp [hauth]), hnone]
  · intro entry audio hsome htts hsend
    unfold handle_inject
    rw [if_neg (by simp [hauth]), hsome, htts, if_pos hsend]
    exact ⟨rfl, rfl⟩
  · intro entry audio hsome htts hsend
    unfold handle_inject
    rw [if_neg (by simp [hauth]), hsome, htts, if_neg (by simp [hsend])]

/-- C9 (witness): the three handler outcomes evaluated on concrete
environments - unknown call sid, failing send, successful send. -/
theorem C9_inject_behaviour_witness :
    (handle_inject { registry := [], authorized := true, tts := .ok [1], send_ok := true }
        "CA1" "hi" = { status := 404, events := [] })
    ∧ (handle_inject
          { registry := [("CA1", { stream_sid := "MZ1", transport := .twilio, speaking := false })]
            authorized := true, tts := .ok [1], send_ok := false } "CA1" "hi"
        = { status := 500
            events := [.tts_call "hi", .set_speaking true, .send_audio, .set_speaking false] })
    ∧ (handle_inject
          { registry := [("CA1", { stream_sid := "MZ1", transport := .twilio, speaking := false })]
            authorized := true, tts := .ok [1], send_ok := true } "CA1" "hi"
        = { status := 200, events := [.tts_call "hi", .set_speaking true, .send_audio] }) := by
  refine ⟨(C9_inject_behaviour _ "CA1" "hi" rfl).1 (by decide), ?_, ?_⟩
  · exact ((C9_inject_behaviour _ "CA1" "hi" rfl).2.1
      { stream_sid := "MZ1", transport := .twilio, speaking := false } [1]
      (by decide) rfl rfl).1
  · exact (C9_inject_behaviour _ "CA1" "hi" rfl).2.2
      { stream_sid := "MZ1", transport := .twilio, speaking := false } [1]
      (by decide) rfl rfl
